import Mathlib

/-!
Shallow embedding of the miniparse INI library (`miniparse-lib/src`) and
verification of its specification.

The embedding translates the Rust source into executable Lean definitions:

* the two compiled regular expressions `KEY_VALUE_REGEX` and
  `SECTION_HEADER_REGEX` become deterministic character scanners
  (`matchKeyValue`, `matchSectionHeader`); since the character classes of the
  patterns (`[^=\s]`, `\s`, literal characters) are pairwise disjoint, any
  regex match decomposes the line uniquely, so a deterministic scan over the
  character list has exactly the matching and capturing behaviour of the
  anchored patterns.  Whitespace (`\s` / `char::is_whitespace`) is modelled by
  its ASCII fragment.
* `str::lines` becomes `rustLines` (split at `'\n'`, drop a final empty piece,
  and remove a trailing `'\r'` from every piece that was terminated by `'\n'`),
  and `str::trim` becomes `trimS`.
* the `regex::Captures` values become option-valued capture records
  (`KvCaptures`, `HeaderCaptures`) so that the library's
  `.name(..).ok_or(ParseError::RegexCaptureGroupNotFound(..))` error plumbing
  is represented faithfully; `parse` and `find` return `Except ParseError _`
  exactly like the Rust `Result`.
* `std::collections::HashMap` is modelled as an association list whose
  `insert` replaces the binding of an existing key; lookup is key-based, and
  iteration order is determinized to insertion order (a `HashMap` iterates in
  an arbitrary order, so any property proved of the rendering below that is
  insensitive to section order holds for the real map as well).
-/

set_option maxHeartbeats 1000000

namespace Miniparse

/-- ASCII fragment of Rust `char::is_whitespace` / the regex class `\s`:
space, tab, line feed, vertical tab, form feed, carriage return. -/
def isWS (c : Char) : Bool :=
  c == ' ' || c == '\t' || c == '\n' || c == '\x0b' || c == '\x0c' || c == '\r'

/-- Characters allowed in a key or value token: the regex class `[^=\s]`. -/
def isTokChar (c : Char) : Bool :=
  !(c == '=') && !(isWS c)

/-- Split a character list at every `'\n'` (the separators are consumed).
Always returns at least one (possibly empty) piece. -/
def splitNl : List Char → List (List Char)
  | [] => [[]]
  | c :: rest =>
    match splitNl rest with
    | seg :: segs => if c == '\n' then [] :: seg :: segs else (c :: seg) :: segs
    | [] => [[]]

/-- Remove one trailing `'\r'`, as Rust `lines` does on a piece that was
terminated by `'\n'`. -/
def stripCr (l : List Char) : List Char :=
  if l.getLast? == some '\r' then l.dropLast else l

/-- Post-process the pieces produced by `splitNl` the way Rust `str::lines`
does: every piece except the last was terminated by `'\n'`, so it loses a
trailing `'\r'`; a final empty piece (input ended in `'\n'`) is dropped and a
final non-empty piece is kept verbatim. -/
def rustLinesAux : List (List Char) → List (List Char)
  | [] => []
  | [last] => if last.isEmpty then [] else [last]
  | seg :: rest => stripCr seg :: rustLinesAux rest

/-- Model of Rust `str::lines`. -/
def rustLines (s : String) : List String :=
  (rustLinesAux (splitNl s.toList)).map List.asString

/-- Model of Rust `str::trim` (ASCII fragment of `char::is_whitespace`). -/
def trimS (s : String) : String :=
  (((s.toList.dropWhile isWS).reverse.dropWhile isWS).reverse).asString

/-- Matching-and-capturing behaviour of
`KEY_VALUE_REGEX = ^\s*(?P<key>[^=\s]+)\s*=\s*(?P<value>[^=\s]+)\s*$`
as a deterministic scan.  The character classes `\s`, `[^=\s]` and `=` are
pairwise disjoint, so each starred/plussed piece of the anchored pattern is
forced to be a maximal run and the decomposition of a matching line is
unique. -/
def matchKeyValue (s : String) : Option (String × String) :=
  let cs0 := s.toList.dropWhile isWS
  let key := cs0.takeWhile isTokChar
  let cs1 := (cs0.dropWhile isTokChar).dropWhile isWS
  if key.isEmpty then none
  else
    match cs1 with
    | '=' :: cs2 =>
      let cs3 := cs2.dropWhile isWS
      let value := cs3.takeWhile isTokChar
      let cs4 := cs3.dropWhile isTokChar
      if value.isEmpty then none
      else if cs4.all isWS then some (key.asString, value.asString)
      else none
    | _ => none

/-- Matching-and-capturing behaviour of
`SECTION_HEADER_REGEX = ^\[(?P<section_name>.+)\]$`: the line must start with
`'['`, end with `']'`, and the captured name is everything in between (the
greedy `.+` reaches from the first `'['` to the last `']'`); the name must be
non-empty and, since `.` does not match a newline, newline-free. -/
def matchSectionHeader (s : String) : Option String :=
  let cs := s.toList
  let mid := (cs.drop 1).dropLast
  if cs.head? == some '[' && cs.getLast? == some ']' && decide (3 ≤ cs.length)
      && mid.all (fun c => !(c == '\n'))
  then some mid.asString
  else none

/-- The named capture groups of a `KEY_VALUE_REGEX` match, as the Rust code
accesses them through `Captures::name` (which returns an `Option`). -/
structure KvCaptures where
  key : Option String
  value : Option String
deriving DecidableEq

/-- The named capture group of a `SECTION_HEADER_REGEX` match. -/
structure HeaderCaptures where
  section_name : Option String
deriving DecidableEq

/-- `KEY_VALUE_REGEX.captures(line)`: the pattern defines both named groups
and both participate in every match, so a successful match populates both. -/
def KEY_VALUE_REGEX_captures (line : String) : Option KvCaptures :=
  (matchKeyValue line).map (fun kv => ⟨some kv.1, some kv.2⟩)

/-- `SECTION_HEADER_REGEX.captures(line)`. -/
def SECTION_HEADER_REGEX_captures (line : String) : Option HeaderCaptures :=
  (matchSectionHeader line).map (fun n => ⟨some n⟩)

/-- `ParseError` from `lib.rs`. -/
inductive ParseError where
  | RegexCaptureGroupNotFound (group : String)
deriving DecidableEq

deriving instance DecidableEq for Except

/-- `captures.name(g).ok_or(ParseError::RegexCaptureGroupNotFound(g))`. -/
def capGet (g : Option String) (gname : String) : Except ParseError String :=
  match g with
  | some s => .ok s
  | none => .error (.RegexCaptureGroupNotFound gname)

/-- `IniEntry` from `models/entry.rs`. -/
structure IniEntry where
  key : String
  value : String
deriving DecidableEq

/-- `IniSection` from `models/section.rs`. -/
structure IniSection where
  entries : List IniEntry
deriving DecidableEq

/-- `SectionId` from `models/section_id.rs`. -/
inductive SectionId where
  | Global
  | Named (name : String)
deriving DecidableEq

/-- `IniFile` from `models/ini_file.rs`; the `HashMap` is modelled as an
association list with unique keys (insertion replaces). -/
structure IniFile where
  global_section : Option IniSection
  sections : List (String × IniSection)
deriving DecidableEq

/-- `IniSection::get_value_by_key`: first entry with the queried key wins. -/
def IniSection.get_value_by_key (s : IniSection) (key : String) : Option String :=
  s.entries.findSome? (fun e => if e.key == key then some e.value else none)

/-- `IniFile::get_global_section`. -/
def IniFile.get_global_section (f : IniFile) : Option IniSection :=
  f.global_section

/-- `HashMap::insert`: replace the binding of an existing key, otherwise add
a new binding (placed at the end: iteration order is determinized to
insertion order). -/
def insertSection (m : List (String × IniSection)) (name : String)
    (sec : IniSection) : List (String × IniSection) :=
  m.filter (fun p => !(p.1 == name)) ++ [(name, sec)]

/-- `IniFile::get_section_by_name` (`HashMap::get`). -/
def IniFile.get_section_by_name (f : IniFile) (name : String) : Option IniSection :=
  (f.sections.find? (fun p => p.1 == name)).map (fun p => p.2)

/-- `IniFileBuilder::new_section`. -/
def new_section (f : IniFile) (name : String) (sec : IniSection) : IniFile :=
  { f with sections := insertSection f.sections name sec }

/-- `IniFileBuilder::set_global_section`. -/
def set_global_section (f : IniFile) (sec : IniSection) : IniFile :=
  { f with global_section := some sec }

/-- `add_section_to_ini_builder` from `lib.rs`: a finalized `Global` section
is installed only if non-empty; a `Named` section is always installed. -/
def add_section_to_ini_builder (fb : IniFile) (id : SectionId)
    (entries : List IniEntry) : IniFile :=
  match id with
  | .Global => if entries.isEmpty then fb else set_global_section fb ⟨entries⟩
  | .Named name => new_section fb name ⟨entries⟩

/-- `impl TryFrom<Captures> for IniEntry` from `models/entry.rs`. -/
def IniEntry.tryFrom (caps : KvCaptures) : Except ParseError IniEntry := do
  let key ← capGet caps.key "key"
  let value ← capGet caps.value "value"
  .ok ⟨key, value⟩

/-- The loop body of `find` from `lib.rs`, one recursive call per input line;
`section_found` is the mutable flag of the Rust loop. -/
def findLoop (lines : List String) (key_to_find : String)
    (section_to_find : Option String) (section_found : Bool) :
    Except ParseError (Option String) :=
  match lines with
  | [] => .ok none
  | l :: rest =>
    let line := trimS l
    if line == "" then findLoop rest key_to_find section_to_find section_found
    else
      match section_to_find with
      | some section_to_find_name =>
        match SECTION_HEADER_REGEX_captures line with
        | some header_caps =>
          if section_found then .ok none
          else do
            let new_section_name ← capGet header_caps.section_name "section_name"
            if new_section_name == section_to_find_name then
              findLoop rest key_to_find section_to_find true
            else
              findLoop rest key_to_find section_to_find section_found
        | none =>
          if !section_found then findLoop rest key_to_find section_to_find section_found
          else
            match KEY_VALUE_REGEX_captures line with
            | some kv_caps => do
              let key ← capGet kv_caps.key "key"
              if key == key_to_find then do
                let value ← capGet kv_caps.value "value"
                .ok (some value)
              else findLoop rest key_to_find section_to_find section_found
            | none => findLoop rest key_to_find section_to_find section_found
      | none =>
        match KEY_VALUE_REGEX_captures line with
        | some kv_caps => do
          let key ← capGet kv_caps.key "key"
          if key == key_to_find then do
            let value ← capGet kv_caps.value "value"
            .ok (some value)
          else findLoop rest key_to_find section_to_find section_found
        | none => findLoop rest key_to_find section_to_find section_found

/-- `find` from `lib.rs`. -/
def find (ini_string key_to_find : String) (section_to_find : Option String) :
    Except ParseError (Option String) :=
  findLoop (rustLines ini_string) key_to_find section_to_find false

/-- The loop of `parse` from `lib.rs`: the file builder and the current
section builder are threaded explicitly; at end of input the current section
is flushed and the file is built. -/
def parseLoop (lines : List String) (fb : IniFile) (id : SectionId)
    (entries : List IniEntry) : Except ParseError IniFile :=
  match lines with
  | [] => .ok (add_section_to_ini_builder fb id entries)
  | l :: rest =>
    let line := trimS l
    if line == "" then parseLoop rest fb id entries
    else
      match KEY_VALUE_REGEX_captures line with
      | some kv_caps => do
        let e ← IniEntry.tryFrom kv_caps
        parseLoop rest fb id (entries ++ [e])
      | none =>
        match SECTION_HEADER_REGEX_captures line with
        | some header_caps => do
          let fb' := add_section_to_ini_builder fb id entries
          let new_section_name ← capGet header_caps.section_name "section_name"
          parseLoop rest fb' (.Named new_section_name) []
        | none => parseLoop rest fb id entries

/-- `parse` from `lib.rs`. -/
def parse (ini_string : String) : Except ParseError IniFile :=
  parseLoop (rustLines ini_string) ⟨none, []⟩ .Global []

/-- The file produced by a (never-failing, see below) run of `parse`. -/
def iniOf (ini_string : String) : IniFile :=
  (parse ini_string).toOption.getD ⟨none, []⟩

/-- `impl Display for IniEntry`: `"{key} = {value}"`. -/
def IniEntry.fmt (e : IniEntry) : String :=
  e.key ++ " = " ++ e.value

/-- Concatenation of a list of strings. -/
def joinAll : List String → String
  | [] => ""
  | s :: rest => s ++ joinAll rest

/-- `impl Display for IniSection`: one `writeln!` per entry. -/
def IniSection.fmt (s : IniSection) : String :=
  joinAll (s.entries.map (fun e => e.fmt ++ "\n"))

/-- `impl Display for IniFile`: the global section (followed by an extra
newline) if present, then each named section as a header line followed by its
body, in map iteration order. -/
def IniFile.fmt (f : IniFile) : String :=
  (match f.global_section with
   | some g => g.fmt ++ "\n"
   | none => "") ++
  joinAll (f.sections.map (fun p => "[" ++ p.1 ++ "]" ++ "\n" ++ p.2.fmt))

/-- Trim a list of lines and drop the blank ones. -/
def cleanify (ls : List String) : List String :=
  (ls.map trimS).filter (fun l => !(l == ""))

/-- The lines of the input as both `parse` and `find` see them: produced by
`str::lines`, trimmed, with blank lines dropped. -/
def cleanLines (ini_string : String) : List String :=
  cleanify (rustLines ini_string)

/-- A line that `parse` classifies as a section header: the key-value pattern
is tried first, so a line matching both patterns counts as key-value. -/
def isParseHeader (l : String) : Bool :=
  (matchKeyValue l).isNone && (matchSectionHeader l).isSome

/-- A non-blank line that one of the two patterns accepts (the complement of
"unparsable" in the spec, after trimming). -/
def parsableLine (l : String) : Bool :=
  trimS l == "" || (matchKeyValue (trimS l)).isSome
    || (matchSectionHeader (trimS l)).isSome

/-- Leading segment of a clean line list: the key-value entries occurring
before the first line `parse` classifies as a section header, together with
the remaining lines starting at that header (unparsable lines are skipped). -/
def takeSeg : List String → List IniEntry × List String
  | [] => ([], [])
  | l :: rest =>
    match matchKeyValue l with
    | some kv =>
      let r := takeSeg rest
      (⟨kv.1, kv.2⟩ :: r.1, r.2)
    | none =>
      match matchSectionHeader l with
      | some _ => ([], l :: rest)
      | none => takeSeg rest

theorem takeSeg_len (ls : List String) : (takeSeg ls).2.length ≤ ls.length := by
  induction ls with
  | nil => simp [takeSeg]
  | cons l rest ih =>
    simp only [takeSeg]
    cases hkv : matchKeyValue l with
    | some kv => simpa using Nat.le_succ_of_le ih
    | none =>
      cases hh : matchSectionHeader l with
      | some n => simp
      | none => simpa using Nat.le_succ_of_le ih

/-- Declarative list of the section declarations of a clean line list, in
file order: each line classified as a header contributes its captured name
together with the key-value entries of the body that follows it (up to the
next header). -/
def specDecls : List String → List (String × List IniEntry)
  | [] => []
  | l :: rest =>
    match matchKeyValue l with
    | some _ => specDecls rest
    | none =>
      match matchSectionHeader l with
      | some n => (n, (takeSeg rest).1) :: specDecls (takeSeg rest).2
      | none => specDecls rest
termination_by ls => ls.length
decreasing_by
  all_goals have := takeSeg_len rest
  all_goals simp
  all_goals omega

/-- Declarative global section: the entries before the first header, or
nothing if there are none. -/
def specGlobal (ls : List String) : Option IniSection :=
  if (takeSeg ls).1.isEmpty then none else some ⟨(takeSeg ls).1⟩

/-- Declarative section map: the declarations inserted in file order
(insertion replaces, so a later duplicate name wins). -/
def specSections (ls : List String) : List (String × IniSection) :=
  List.foldl (fun m d => insertSection m d.1 ⟨d.2⟩) [] (specDecls (takeSeg ls).2)

/-- Declarative scoped lookup, following the specification text: within the
body of the target section — the lines strictly between the first header
whose captured name equals the target and the next header of any kind — the
value of the first key-value line whose key equals the queried key. -/
def scopedBody (ls : List String) (key : String) : Option String :=
  let body := ls.takeWhile (fun l => (matchSectionHeader l).isNone)
  ((body.filterMap matchKeyValue).find? (fun kv => kv.1 == key)).map (fun kv => kv.2)

/-- Declarative scoped `find`. -/
def scopedFindSpec (ini_string key target : String) : Option String :=
  match (cleanLines ini_string).dropWhile
      (fun l => !(matchSectionHeader l == some target)) with
  | [] => none
  | _ :: after => scopedBody after key

/-- Declarative unscoped `find`: section headers are not special; the first
key-value line anywhere in the file whose key matches wins. -/
def unscopedFindSpec (ini_string key : String) : Option String :=
  (((cleanLines ini_string).filterMap matchKeyValue).find?
    (fun kv => kv.1 == key)).map (fun kv => kv.2)

/-- A well-formed token of the grammar: non-empty, containing no `'='` and no
whitespace character. -/
def goodToken (t : String) : Prop :=
  t ≠ "" ∧ ∀ c ∈ t.toList, c ≠ '=' ∧ isWS c = false

/-- The state of `parse` part-way through its input, expressed declaratively:
given the file builder so far, the current section builder (id and entries)
and the remaining clean lines, the file the loop will return. -/
def parseSpecFrom (fb : IniFile) (id : SectionId) (es : List IniEntry)
    (ls : List String) : IniFile :=
  match id with
  | .Global =>
    ⟨if (es ++ (takeSeg ls).1).isEmpty then fb.global_section
       else some ⟨es ++ (takeSeg ls).1⟩,
     List.foldl (fun m d => insertSection m d.1 ⟨d.2⟩) fb.sections
       (specDecls (takeSeg ls).2)⟩
  | .Named n =>
    ⟨fb.global_section,
     List.foldl (fun m d => insertSection m d.1 ⟨d.2⟩) fb.sections
       ((n, es ++ (takeSeg ls).1) :: specDecls (takeSeg ls).2)⟩

/-- A section name whose rendered header line round-trips: non-empty,
newline-free, and not accepted by the key-value pattern (which `parse` tries
first). -/
def goodSectionName (n : String) : Prop :=
  n ≠ "" ∧ '\n' ∉ n.toList ∧ matchKeyValue ("[" ++ n ++ "]") = none

instance (t : String) : Decidable (goodToken t) :=
  inferInstanceAs (Decidable (t ≠ "" ∧ ∀ c ∈ t.toList, c ≠ '=' ∧ isWS c = false))

instance (n : String) : Decidable (goodSectionName n) :=
  inferInstanceAs
    (Decidable (n ≠ "" ∧ '\n' ∉ n.toList ∧ matchKeyValue ("[" ++ n ++ "]") = none))

/-- Content restrictions under which rendering a file is faithful: every
entry key and value is a well-formed token, the global section (if present)
is non-empty, every section name is well-formed, and — the `HashMap` key
invariant — section names are distinct. -/
def goodFileContent (f : IniFile) : Prop :=
  (∀ g, f.global_section = some g →
    g.entries ≠ [] ∧ ∀ e ∈ g.entries, goodToken e.key ∧ goodToken e.value)
  ∧ (∀ p ∈ f.sections,
      goodSectionName p.1 ∧ ∀ e ∈ p.2.entries, goodToken e.key ∧ goodToken e.value)
  ∧ (f.sections.map Prod.fst).Nodup

/-- Concatenation of character-list lines, each terminated by a newline. -/
def nlJoin (chunks : List (List Char)) : List Char :=
  (chunks.map (fun l => l ++ ['\n'])).flatten

/-- The lines (as character lists) that `IniFile.fmt` emits, in order:
the global entries followed by a blank separator (if a global section is
present), then for each named section its header line followed by its entry
lines. -/
def fileChunks (f : IniFile) : List (List Char) :=
  (match f.global_section with
   | some g => g.entries.map (fun e => e.fmt.toList) ++ [[]]
   | none => []) ++
  (f.sections.map
    (fun p => ('[' :: p.1.toList ++ [']']) :: p.2.entries.map (fun e => e.fmt.toList))).flatten

theorem cleanify_nil : cleanify [] = [] := rfl

theorem cleanify_cons (l : String) (ls : List String) :
    cleanify (l :: ls) =
      if trimS l = "" then cleanify ls else trimS l :: cleanify ls := by
  by_cases h : trimS l = "" <;> simp [cleanify, h]

theorem parseSpecFrom_kv (fb : IniFile) (id : SectionId) (es : List IniEntry)
    (t : String) (ls : List String) (k v : String)
    (h : matchKeyValue t = some (k, v)) :
    parseSpecFrom fb id es (t :: ls) = parseSpecFrom fb id (es ++ [⟨k, v⟩]) ls := by
  cases id <;> simp [parseSpecFrom, takeSeg, h]

theorem parseSpecFrom_header (fb : IniFile) (id : SectionId) (es : List IniEntry)
    (t : String) (ls : List String) (n : String)
    (hkv : matchKeyValue t = none) (hh : matchSectionHeader t = some n) :
    parseSpecFrom fb id es (t :: ls)
      = parseSpecFrom (add_section_to_ini_builder fb id es) (.Named n) [] ls := by
  cases id with
  | Global =>
    by_cases h : es.isEmpty <;>
      simp [parseSpecFrom, takeSeg, specDecls, hkv, hh, add_section_to_ini_builder,
        set_global_section, h, List.foldl_cons]
  | Named n0 =>
    simp [parseSpecFrom, takeSeg, specDecls, hkv, hh, add_section_to_ini_builder,
      new_section, List.foldl_cons]

theorem parseSpecFrom_skip (fb : IniFile) (id : SectionId) (es : List IniEntry)
    (t : String) (ls : List String)
    (hkv : matchKeyValue t = none) (hh : matchSectionHeader t = none) :
    parseSpecFrom fb id es (t :: ls) = parseSpecFrom fb id es ls := by
  cases id <;> simp [parseSpecFrom, takeSeg, hkv, hh]

/-- Central refinement for `parse`: the loop of `parse` never fails and
computes the declarative description `parseSpecFrom` of its result. -/
theorem parseLoop_eq (ls : List String) : ∀ (fb : IniFile) (id : SectionId)
    (es : List IniEntry),
    parseLoop ls fb id es = .ok (parseSpecFrom fb id es (cleanify ls)) := by
  induction ls with
  | nil =>
    intro fb id es
    cases id with
    | Global =>
      by_cases h : es.isEmpty <;>
        simp [parseLoop, parseSpecFrom, add_section_to_ini_builder,
          set_global_section, takeSeg, specDecls, cleanify, h]
    | Named n =>
      simp [parseLoop, parseSpecFrom, add_section_to_ini_builder, new_section,
        takeSeg, specDecls, cleanify]
  | cons l rest ih =>
    intro fb id es
    by_cases hb : trimS l = ""
    · have hc : cleanify (l :: rest) = cleanify rest := by
        rw [cleanify_cons, if_pos hb]
      have step : parseLoop (l :: rest) fb id es = parseLoop rest fb id es := by
        simp [parseLoop, hb]
      rw [step, ih, hc]
    · rw [cleanify_cons, if_neg hb]
      cases hkv : matchKeyValue (trimS l) with
      | some kv =>
        have step : parseLoop (l :: rest) fb id es
            = parseLoop rest fb id (es ++ [⟨kv.1, kv.2⟩]) := by
          simp only [parseLoop, KEY_VALUE_REGEX_captures, hkv]
          rw [if_neg (by simpa using hb)]
          rfl
        rw [step, ih, parseSpecFrom_kv fb id es (trimS l) (cleanify rest) kv.1 kv.2 hkv]
      | none =>
        cases hh : matchSectionHeader (trimS l) with
        | some n =>
          have step : parseLoop (l :: rest) fb id es
              = parseLoop rest (add_section_to_ini_builder fb id es) (.Named n) [] := by
            simp only [parseLoop, KEY_VALUE_REGEX_captures, hkv,
              SECTION_HEADER_REGEX_captures, hh]
            rw [if_neg (by simpa using hb)]
            rfl
          rw [step, ih, parseSpecFrom_header fb id es (trimS l) (cleanify rest) n hkv hh]
        | none =>
          have step : parseLoop (l :: rest) fb id es = parseLoop rest fb id es := by
            simp only [parseLoop, KEY_VALUE_REGEX_captures, hkv,
              SECTION_HEADER_REGEX_captures, hh]
            rw [if_neg (by simpa using hb)]
            rfl
          rw [step, ih, parseSpecFrom_skip fb id es (trimS l) (cleanify rest) hkv hh]

/-- `parse` always succeeds, with the declaratively-described file. -/
theorem parse_eq (ini_string : String) :
    parse ini_string
      = .ok ⟨specGlobal (cleanLines ini_string), specSections (cleanLines ini_string)⟩ := by
  rw [parse, parseLoop_eq]
  simp [parseSpecFrom, specGlobal, specSections, cleanLines]

theorem iniOf_eq (ini_string : String) :
    iniOf ini_string
      = ⟨specGlobal (cleanLines ini_string), specSections (cleanLines ini_string)⟩ := by
  rw [iniOf, parse_eq]
  rfl

/-- Unscoped `find` never fails and returns the first key-value match of the
whole input in file order. -/
theorem findLoop_none_eq (ls : List String) (key : String) (b : Bool) :
    findLoop ls key none b
      = .ok ((((cleanify ls).filterMap matchKeyValue).find?
          (fun kv => kv.1 == key)).map (fun kv => kv.2)) := by
  induction ls with
  | nil => simp [findLoop, cleanify]
  | cons l rest ih =>
    by_cases hb : trimS l = ""
    · have step : findLoop (l :: rest) key none b = findLoop rest key none b := by
        simp [findLoop, hb]
      rw [step, ih, cleanify_cons, if_pos hb]
    · rw [cleanify_cons, if_neg hb]
      cases hkv : matchKeyValue (trimS l) with
      | some kv =>
        have step : findLoop (l :: rest) key none b
            = if (kv.1 == key) = true then .ok (some kv.2)
              else findLoop rest key none b := by
          simp only [findLoop, KEY_VALUE_REGEX_captures, hkv]
          rw [if_neg (by simpa using hb)]
          rfl
        rw [step]
        cases hk : kv.1 == key with
        | true => simp [hkv, hk]
        | false => simp [hkv, hk, ih]
      | none =>
        have step : findLoop (l :: rest) key none b = findLoop rest key none b := by
          simp only [findLoop, KEY_VALUE_REGEX_captures, hkv]
          rw [if_neg (by simpa using hb)]
          rfl
        rw [step, ih]
        simp [hkv]

/-- Scoped `find`, after the target section has been entered: the result is
determined by the body lines up to the next header. -/
theorem findLoop_found_eq (ls : List String) (key target : String) :
    findLoop ls key (some target) true = .ok (scopedBody (cleanify ls) key) := by
  induction ls with
  | nil => simp [findLoop, cleanify, scopedBody]
  | cons l rest ih =>
    by_cases hb : trimS l = ""
    · have step : findLoop (l :: rest) key (some target) true
          = findLoop rest key (some target) true := by
        simp [findLoop, hb]
      rw [step, ih, cleanify_cons, if_pos hb]
    · rw [cleanify_cons, if_neg hb]
      cases hh : matchSectionHeader (trimS l) with
      | some n =>
        have step : findLoop (l :: rest) key (some target) true = .ok none := by
          simp only [findLoop, SECTION_HEADER_REGEX_captures, hh]
          rw [if_neg (by simpa using hb)]
          rfl
        rw [step]
        simp [scopedBody, hh]
      | none =>
        cases hkv : matchKeyValue (trimS l) with
        | some kv =>
          have step : findLoop (l :: rest) key (some target) true
              = if (kv.1 == key) = true then .ok (some kv.2)
                else findLoop rest key (some target) true := by
            simp only [findLoop, SECTION_HEADER_REGEX_captures, hh,
              KEY_VALUE_REGEX_captures, hkv]
            rw [if_neg (by simpa using hb)]
            rfl
          rw [step]
          cases hk : kv.1 == key with
          | true => simp [scopedBody, hh, hkv, hk]
          | false => simp [scopedBody, hh, hkv, hk, ih, List.takeWhile_cons]
        | none =>
          have step : findLoop (l :: rest) key (some target) true
              = findLoop rest key (some target) true := by
            simp only [findLoop, SECTION_HEADER_REGEX_captures, hh,
              KEY_VALUE_REGEX_captures, hkv]
            rw [if_neg (by simpa using hb)]
            rfl
          rw [step, ih]
          simp [scopedBody, hh, hkv, List.takeWhile_cons]

/-- Scoped `find` before the target section has been entered: lines are
skipped up to the first header whose captured name equals the target. -/
theorem findLoop_scoped_eq (ls : List String) (key target : String) :
    findLoop ls key (some target) false
      = .ok (match (cleanify ls).dropWhile
              (fun l => !(matchSectionHeader l == some target)) with
             | [] => none
             | _ :: after => scopedBody after key) := by
  induction ls with
  | nil => simp [findLoop, cleanify]
  | cons l rest ih =>
    by_cases hb : trimS l = ""
    · have step : findLoop (l :: rest) key (some target) false
          = findLoop rest key (some target) false := by
        simp [findLoop, hb]
      rw [step, ih, cleanify_cons, if_pos hb]
    · rw [cleanify_cons, if_neg hb]
      cases hh : matchSectionHeader (trimS l) with
      | some n =>
        have step : findLoop (l :: rest) key (some target) false
            = if (n == target) = true then findLoop rest key (some target) true
              else findLoop rest key (some target) false := by
          simp only [findLoop, SECTION_HEADER_REGEX_captures, hh]
          rw [if_neg (by simpa using hb)]
          rfl
        rw [step]
        by_cases ht : n = target
        · subst ht
          rw [if_pos (by simp), findLoop_found_eq]
          rw [List.dropWhile_cons]
          simp [hh]
        · rw [if_neg (by simpa using ht), ih, List.dropWhile_cons]
          simp [hh, ht]
      | none =>
        have step : findLoop (l :: rest) key (some target) false
            = findLoop rest key (some target) false := by
          simp only [findLoop, SECTION_HEADER_REGEX_captures, hh]
          rw [if_neg (by simpa using hb)]
          rfl
        rw [step, ih, List.dropWhile_cons]
        simp [hh]

/-- `find` with a target section never fails and agrees with the declarative
scoped lookup. -/
theorem find_scoped_eq (input key target : String) :
    find input key (some target) = .ok (scopedFindSpec input key target) := by
  rw [find, findLoop_scoped_eq]
  rfl

/-- `find` without a target section never fails and agrees with the
declarative unscoped lookup. -/
theorem find_unscoped_eq (input key : String) :
    find input key none = .ok (unscopedFindSpec input key) := by
  rw [find, findLoop_none_eq]
  rfl

theorem matchKeyValue_some_mem_eq (s k v : String)
    (h : matchKeyValue s = some (k, v)) : '=' ∈ s.toList := by
  simp only [matchKeyValue] at h
  split at h
  · exact absurd h (by simp)
  · split at h
    · rename_i heq
      have hmem : '=' ∈ (((s.toList.dropWhile isWS).dropWhile isTokChar).dropWhile isWS) := by
        rw [heq]
        exact List.mem_cons_self _ _
      have s1 := List.dropWhile_sublist (l := (s.toList.dropWhile isWS).dropWhile isTokChar)
        (p := isWS)
      have s2 := List.dropWhile_sublist (l := s.toList.dropWhile isWS) (p := isTokChar)
      have s3 := List.dropWhile_sublist (l := s.toList) (p := isWS)
      exact s3.subset (s2.subset (s1.subset hmem))
    · exact absurd h (by simp)

theorem matchSectionHeader_some_shape (s n : String)
    (h : matchSectionHeader s = some n) :
    s.toList.head? = some '[' ∧ s.toList.getLast? = some ']' := by
  simp only [matchSectionHeader] at h
  split at h
  · rename_i hc
    simp only [Bool.and_eq_true, beq_iff_eq] at hc
    exact ⟨hc.1.1.1, hc.1.1.2⟩
  · exact absurd h (by simp)

/-- Claim C1 (amended): the key-value pattern and the section-header pattern
are NOT mutually exclusive.  A trimmed non-blank line can match both — it
then necessarily begins with `'['`, ends with `']'` and contains `'='` (as
`"[a=b]"` does) — and on such lines the attempt order does matter: `parse`
(key-value first) treats the line as an entry, while scoped `find`
(section-header first) treats it as a section header. -/
theorem claim_C1 (s : String) (h1 : (matchKeyValue s).isSome = true)
    (h2 : (matchSectionHeader s).isSome = true) :
    s.toList.head? = some '[' ∧ s.toList.getLast? = some ']' ∧ '=' ∈ s.toList := by
  obtain ⟨kv, hkv⟩ := Option.isSome_iff_exists.mp h1
  obtain ⟨n, hn⟩ := Option.isSome_iff_exists.mp h2
  obtain ⟨hhead, hlast⟩ := matchSectionHeader_some_shape s n hn
  exact ⟨hhead, hlast, matchKeyValue_some_mem_eq s kv.1 kv.2 (by simpa using hkv)⟩

/-- Claim C1, witness: the overlap characterization applied to the concrete
doubly-matching line `"[a=b]"`. -/
theorem claim_C1_witness :
    ("[a=b]" : String).toList.head? = some '[' ∧
      ("[a=b]" : String).toList.getLast? = some ']' ∧ '=' ∈ ("[a=b]" : String).toList :=
  claim_C1 "[a=b]" (by decide) (by decide)

/-- Claim C1, counterexample to the claim as stated: the trimmed non-blank
line `"[a=b]"` matches both patterns, and the classification order is
observable: `parse` records a global entry `("[a", "b]")` and creates no
section named `"a=b"`, while scoped `find` enters `"[a=b]"` as the header of
section `"a=b"` and resolves keys inside it. -/
theorem claim_C1_counterexample :
    trimS "[a=b]" = "[a=b]" ∧ ("[a=b]" : String) ≠ ""
    ∧ (matchKeyValue "[a=b]").isSome = true
    ∧ (matchSectionHeader "[a=b]").isSome = true
    ∧ iniOf "[a=b]" = ⟨some ⟨[⟨"[a", "b]"⟩]⟩, []⟩
    ∧ (iniOf "[a=b]").get_section_by_name "a=b" = none
    ∧ find "[a=b]\nk=v" "k" (some "a=b") = .ok (some "v") := by
  decide

/-- Claim C2: scoped `find` equals the declarative scoped lookup — it enters
the target at the first header whose captured name equals the target, then
answers from the key-value lines strictly before the next header of any
kind, returning "not found" when the target is never entered or no key in
its body matches; on `"[a]\nk=1\n[b]\nk=2"` the scoped query for `k` in `a`
returns `"1"` without considering `b`'s `k`. -/
theorem claim_C2 :
    (∀ input key target,
        find input key (some target) = .ok (scopedFindSpec input key target))
    ∧ find "[a]\nk=1\n[b]\nk=2" "k" (some "a") = .ok (some "1") :=
  ⟨find_scoped_eq, by decide⟩

/-- Claim C3: unscoped `find` equals the declarative unscoped lookup — the
first key-value line of the whole file whose key matches wins, regardless of
enclosing sections; on `"[a]\nk=1\n[b]\nk=2"` the unscoped query for `k`
returns `"1"` although that line sits inside section `a`. -/
theorem claim_C3 :
    (∀ input key, find input key none = .ok (unscopedFindSpec input key))
    ∧ find "[a]\nk=1\n[b]\nk=2" "k" none = .ok (some "1") :=
  ⟨find_unscoped_eq, by decide⟩

/-- Claim C8: `parse` and `find` never fail — the `RegexCaptureGroupNotFound`
branch is unreachable because the compiled patterns populate every named
group they use; missing sections or keys and unparsable lines are reported
as absence, not as errors. -/
theorem claim_C8 :
    (∀ input, ∃ f, parse input = Except.ok f)
    ∧ (∀ input key sec, ∃ v, find input key sec = Except.ok v) := by
  refine ⟨fun input => ⟨_, parse_eq input⟩, fun input key sec => ?_⟩
  cases sec with
  | none => exact ⟨_, find_unscoped_eq input key⟩
  | some t => exact ⟨_, find_scoped_eq input key t⟩

/-- Claim C10: once scoped `find` has entered the target section, any further
header line — including one repeating the target name — makes it return
"not found" immediately; concretely, on `"[a]\nx=1\n[a]\nk=2"` the scoped
query for `k` in `a` returns "not found" although `parse` keeps the last
duplicate body, so `get_section_by_name "a"` followed by `get_value_by_key
"k"` returns `"2"`. -/
theorem claim_C10 :
    (∀ l rest key target, (matchSectionHeader (trimS l)).isSome = true →
        findLoop (l :: rest) key (some target) true = .ok none)
    ∧ find "[a]\nx=1\n[a]\nk=2" "k" (some "a") = .ok none
    ∧ (iniOf "[a]\nx=1\n[a]\nk=2").get_section_by_name "a" = some ⟨[⟨"k", "2"⟩]⟩
    ∧ ((iniOf "[a]\nx=1\n[a]\nk=2").get_section_by_name "a").bind
        (fun sec => sec.get_value_by_key "k") = some "2" := by
  refine ⟨?_, by decide, by decide, by decide⟩
  intro l rest key target h
  have hb : ¬ trimS l = "" := by
    intro e
    rw [e] at h
    exact absurd h (by decide)
  cases hh : matchSectionHeader (trimS l) with
  | none => rw [hh] at h; exact absurd h (by simp)
  | some n =>
    simp only [findLoop, SECTION_HEADER_REGEX_captures, hh]
    rw [if_neg (by simpa using hb)]
    rfl

/-- Claim C10, witness: a body-terminating header observed concretely. -/
theorem claim_C10_witness : findLoop ["[b]"] "k" (some "a") true = .ok none :=
  claim_C10.1 "[b]" [] "k" "a" (by decide)

/-- Claim C6: `get_value_by_key` returns the value of the first entry in
insertion order whose key matches, and the section keeps its full ordered
entry list (later duplicates remain stored, observable by iteration). -/
theorem claim_C6 (l : List IniEntry) (key : String) (i : Nat) (e : IniEntry)
    (h1 : ∀ d ∈ l.take i, d.key ≠ key) (h2 : l[i]? = some e) (h3 : e.key = key) :
    IniSection.get_value_by_key ⟨l⟩ key = some e.value
    ∧ (IniSection.mk l).entries = l := by
  refine ⟨?_, rfl⟩
  induction l generalizing i with
  | nil => simp at h2
  | cons d rest ih =>
    cases i with
    | zero =>
      simp only [List.getElem?_cons_zero, Option.some_inj] at h2
      subst h2
      simp [IniSection.get_value_by_key, List.findSome?_cons, h3]
    | succ i =>
      have hd : d.key ≠ key := h1 d (by simp [List.take_succ_cons])
      have step : IniSection.get_value_by_key ⟨d :: rest⟩ key
          = IniSection.get_value_by_key ⟨rest⟩ key := by
        simp [IniSection.get_value_by_key, List.findSome?_cons, hd]
      rw [step]
      refine ih i (fun d' hd' => h1 d' ?_) (by simpa using h2)
      simp only [List.take_succ_cons, List.mem_cons]
      exact Or.inr hd'

/-- Claim C6, witness: duplicate keys `(k,"a")` then `(k,"b")` resolve to
`"a"`. -/
theorem claim_C6_witness :
    IniSection.get_value_by_key ⟨[⟨"k", "a"⟩, ⟨"k", "b"⟩]⟩ "k" = some "a" :=
  (claim_C6 [⟨"k", "a"⟩, ⟨"k", "b"⟩] "k" 0 ⟨"k", "a"⟩ (by simp) (by decide) rfl).1

/-- The entries collected before the first line that `parse` classifies as a
header are exactly the key-value matches of that prefix. -/
theorem takeSeg_fst_eq (ls : List String) :
    (takeSeg ls).1 = (ls.takeWhile (fun l => !(isParseHeader l))).filterMap
      (fun l => (matchKeyValue l).map (fun kv => (⟨kv.1, kv.2⟩ : IniEntry))) := by
  induction ls with
  | nil => simp [takeSeg]
  | cons l rest ih =>
    cases hkv : matchKeyValue l with
    | some kv =>
      simp [takeSeg, hkv, isParseHeader, List.takeWhile_cons, ih]
    | none =>
      cases hh : matchSectionHeader l with
      | some n => simp [takeSeg, hkv, hh, isParseHeader, List.takeWhile_cons]
      | none => simp [takeSeg, hkv, hh, isParseHeader, List.takeWhile_cons, ih]

theorem splitNl_no_nl (l : List Char) (h : ∀ c ∈ l, ¬ c = '\n') :
    splitNl l = [l] := by
  induction l with
  | nil => rfl
  | cons c rest ih =>
    have hc : ¬ c = '\n' := h c (by simp)
    rw [splitNl, ih (fun c' hc' => h c' (by simp [hc']))]
    simp [hc]

theorem dropWhile_eq_self_of_head (p : Char → Bool) (l : List Char)
    (h : ∀ c, l.head? = some c → p c = false) : l.dropWhile p = l := by
  cases l with
  | nil => rfl
  | cons c rest =>
    rw [List.dropWhile_cons, if_neg]
    simp [h c rfl]

theorem trimS_of_ends (s : String)
    (h1 : ∀ c, s.toList.head? = some c → isWS c = false)
    (h2 : ∀ c, s.toList.getLast? = some c → isWS c = false) : trimS s = s := by
  rw [trimS]
  rw [dropWhile_eq_self_of_head _ _ h1]
  rw [dropWhile_eq_self_of_head _ _
    (fun c hc => h2 c (by rwa [List.getLast?_eq_head?_reverse]))]
  rw [List.reverse_reverse, String.asString_toList]

theorem bracket_toList (s : String) :
    ("[" ++ s ++ "]").toList = '[' :: (s.toList ++ [']']) := by
  have := String.data_append ("[" ++ s) "]"
  have h2 := String.data_append "[" s
  simp only [String.toList, this, h2]
  rfl

/-- Claim C4: the flush rule is asymmetric.  If no key-value line precedes
the first header, the parsed file has no global section; and a bare header
line `"[s]"` (one the classifier accepts as a header) produces a file with a
named section `s` having an empty entry list and no global section. -/
theorem claim_C4 :
    (∀ input, (∀ l ∈ (cleanLines input).takeWhile (fun l => !(isParseHeader l)),
        matchKeyValue l = none) → (iniOf input).get_global_section = none)
    ∧ (∀ s, matchKeyValue ("[" ++ s ++ "]") = none →
        matchSectionHeader ("[" ++ s ++ "]") = some s →
        (iniOf ("[" ++ s ++ "]")).get_section_by_name s = some ⟨[]⟩
        ∧ (iniOf ("[" ++ s ++ "]")).get_global_section = none) := by
  constructor
  · intro input h
    rw [iniOf_eq]
    show specGlobal (cleanLines input) = none
    rw [specGlobal]
    have : (takeSeg (cleanLines input)).1 = [] := by
      rw [takeSeg_fst_eq, List.filterMap_eq_nil_iff]
      intro l hl
      rw [h l hl]
      rfl
    simp [this]
  · intro s hkv hh
    have hnl : ∀ c ∈ ("[" ++ s ++ "]").toList, ¬ c = '\n' := by
      intro c hc
      rw [bracket_toList] at hc
      rcases List.mem_cons.mp hc with h1 | h1
      · simp [h1]
      rcases List.mem_append.mp h1 with h2 | h2
      · simp only [matchSectionHeader] at hh
        split at hh
        · rename_i hcond
          simp only [Bool.and_eq_true] at hcond
          have hmid := hcond.2
          rw [bracket_toList] at hmid
          have : ('[' :: (s.toList ++ [']'])).drop 1 = s.toList ++ [']'] := rfl
          rw [this, List.dropLast_concat] at hmid
          have := List.all_eq_true.mp hmid c h2
          simpa using this
        · exact absurd hh (by simp)
      · simp at h2
        simp [h2]
    have hlines : rustLines ("[" ++ s ++ "]") = ["[" ++ s ++ "]"] := by
      rw [rustLines, splitNl_no_nl _ hnl]
      have hne : ("[" ++ s ++ "]").toList.isEmpty = false := by
        rw [bracket_toList]
        rfl
      simp only [rustLinesAux, hne, Bool.false_eq_true, if_false, List.map_cons,
        List.map_nil]
      simp only [String.asString_toList]
    have htrim : trimS ("[" ++ s ++ "]") = "[" ++ s ++ "]" := by
      apply trimS_of_ends
      · intro c hc
        rw [bracket_toList] at hc
        simp only [List.head?_cons, Option.some_inj] at hc
        subst hc
        rfl
      · intro c hc
        rw [bracket_toList] at hc
        have : ('[' :: (s.toList ++ [']'])).getLast? = some ']' := by
          have : '[' :: (s.toList ++ [']']) = ('[' :: s.toList) ++ [']'] := by simp
          rw [this, List.getLast?_concat]
        rw [this] at hc
        simp only [Option.some_inj] at hc
        subst hc
        rfl
    have hclean : cleanLines ("[" ++ s ++ "]") = ["[" ++ s ++ "]"] := by
      rw [cleanLines, hlines, cleanify_cons, htrim, cleanify_nil, if_neg]
      intro habs
      have := congrArg String.toList habs
      rw [bracket_toList] at this
      simp at this
    rw [iniOf_eq, hclean]
    constructor
    · simp [IniFile.get_section_by_name, specSections, takeSeg, specDecls, hkv, hh,
        insertSection]
    · simp [IniFile.get_global_section, specGlobal, takeSeg, hkv, hh]

/-- Claim C4, witness: a file whose prefix has no key-value line gets no
global section, and a bare `"[s]"` yields an empty named section. -/
theorem claim_C4_witness :
    (iniOf "junk\n[s]\nk=v").get_global_section = none
    ∧ (iniOf ("[" ++ "s" ++ "]")).get_section_by_name "s" = some ⟨[]⟩ :=
  ⟨claim_C4.1 "junk\n[s]\nk=v" (by decide),
   (claim_C4.2 "s" (by decide) (by decide)).1⟩

theorem find?_insertSection_self (m : List (String × IniSection)) (n : String)
    (sec : IniSection) :
    (insertSection m n sec).find? (fun p => p.1 == n) = some (n, sec) := by
  rw [insertSection, List.find?_append]
  have hleft : (m.filter (fun p => !(p.1 == n))).find? (fun p => p.1 == n) = none := by
    rw [List.find?_eq_none]
    intro p hp
    have := (List.mem_filter.mp hp).2
    simpa using this
  rw [hleft, Option.none_or]
  simp [List.find?_cons]

theorem find?_insertSection_ne (m : List (String × IniSection)) (n n' : String)
    (sec : IniSection) (h : ¬ n = n') :
    (insertSection m n' sec).find? (fun p => p.1 == n)
      = m.find? (fun p => p.1 == n) := by
  rw [insertSection, List.find?_append]
  have h' : ¬ n' = n := fun he => h he.symm
  have hright : ([(n', sec)] : List (String × IniSection)).find? (fun p => p.1 == n)
      = none := by
    simp [List.find?_cons, h']
  rw [hright, Option.or_none, List.find?_filter]
  congr 1
  funext p
  by_cases hp : p.1 = n
  · simp [hp, h]
  · simp [hp]

/-- Lookup after folding declarations into the section map: the last
declaration with the queried name wins; if there is none, the map before the
fold answers. -/
theorem lookup_foldl_insert (ds : List (String × List IniEntry)) :
    ∀ (m : List (String × IniSection)) (n : String),
    (List.foldl (fun m d => insertSection m d.1 ⟨d.2⟩) m ds).find? (fun p => p.1 == n)
      = match ds.reverse.find? (fun d => d.1 == n) with
        | some d => some (n, ⟨d.2⟩)
        | none => m.find? (fun p => p.1 == n) := by
  induction ds with
  | nil => intro m n; simp
  | cons d ds ih =>
    intro m n
    rw [List.foldl_cons, ih, List.reverse_cons, List.find?_append]
    cases hfind : ds.reverse.find? (fun d => d.1 == n) with
    | some d' => simp [hfind]
    | none =>
      simp only [hfind, Option.none_or]
      by_cases hn : d.1 = n
      · subst hn
        rw [find?_insertSection_self]
        simp [List.find?_cons]
      · rw [find?_insertSection_ne m n d.1 _ (fun he => hn he.symm)]
        simp [List.find?_cons, hn]

/-- Claim C5: `parse` maps each declared section name to the body of its last
declaration — `get_section_by_name` answers with the entries collected after
the final header carrying that name, and entries of earlier declarations of
the same name are unreachable; concretely `"[a]\nk=1\n[a]\nj=2"` yields only
`j=2` under `a`. -/
theorem claim_C5 :
    (∀ input n, (iniOf input).get_section_by_name n
        = ((specDecls (takeSeg (cleanLines input)).2).reverse.find?
            (fun d => d.1 == n)).map (fun d => (⟨d.2⟩ : IniSection)))
    ∧ (iniOf "[a]\nk=1\n[a]\nj=2").get_section_by_name "a" = some ⟨[⟨"j", "2"⟩]⟩ := by
  refine ⟨?_, by decide⟩
  intro input n
  rw [iniOf_eq]
  show ((specSections (cleanLines input)).find? (fun p => p.1 == n)).map _
    = _
  rw [specSections, lookup_foldl_insert]
  cases hfind : (specDecls (takeSeg (cleanLines input)).2).reverse.find?
      (fun d => d.1 == n) with
  | some d => simp
  | none => simp

theorem goodToken_of_matchKeyValue (s k v : String)
    (h : matchKeyValue s = some (k, v)) : goodToken k ∧ goodToken v := by
  simp only [matchKeyValue] at h
  split at h
  · exact absurd h (by simp)
  · rename_i hkey
    split at h
    · rename_i cs2 heq
      split at h
      · exact absurd h (by simp)
      · split at h
        · simp only [Option.some_inj, Prod.mk.injEq] at h
          obtain ⟨hk, hv⟩ := h
          constructor
          · subst hk
            constructor
            · intro habs
              have := congrArg String.toList habs
              rw [List.toList_asString] at this
              simp only [String.toList_empty] at this
              rw [this] at hkey
              exact hkey rfl
            · intro c hc
              rw [List.toList_asString] at hc
              have := List.mem_takeWhile_imp hc
              simp only [isTokChar, Bool.and_eq_true, Bool.not_eq_true',
                beq_eq_false_iff_ne] at this
              exact ⟨this.1, by simpa [isWS] using this.2⟩
          · subst hv
            constructor
            · intro habs
              rename_i hval _
              have := congrArg String.toList habs
              rw [List.toList_asString] at this
              simp only [String.toList_empty] at this
              rw [this] at hval
              exact hval rfl
            · intro c hc
              rw [List.toList_asString] at hc
              have := List.mem_takeWhile_imp hc
              simp only [isTokChar, Bool.and_eq_true, Bool.not_eq_true',
                beq_eq_false_iff_ne] at this
              exact ⟨this.1, by simpa [isWS] using this.2⟩
        · exact absurd h (by simp)
    · exact absurd h (by simp)

theorem takeSeg_entries_good (ls : List String) :
    ∀ e ∈ (takeSeg ls).1, goodToken e.key ∧ goodToken e.value := by
  induction ls with
  | nil => simp [takeSeg]
  | cons l rest ih =>
    intro e he
    cases hkv : matchKeyValue l with
    | some kv =>
      rw [takeSeg] at he
      simp only [hkv] at he
      rcases List.mem_cons.mp he with h1 | h1
      · subst h1
        exact goodToken_of_matchKeyValue l kv.1 kv.2 (by simpa using hkv)
      · exact ih e h1
    | none =>
      rw [takeSeg] at he
      simp only [hkv] at he
      cases hh : matchSectionHeader l with
      | some n => simp [hh] at he
      | none =>
        rw [hh] at he
        exact ih e he

theorem specDecls_entries_good (ls : List String) :
    ∀ d ∈ specDecls ls, ∀ e ∈ d.2, goodToken e.key ∧ goodToken e.value := by
  induction ls using specDecls.induct with
  | case1 => simp [specDecls]
  | case2 l rest kv hkv ih =>
    intro d hd
    rw [specDecls] at hd
    simp only [hkv] at hd
    exact ih d hd
  | case3 l rest hkv n hh ih =>
    intro d hd
    rw [specDecls] at hd
    simp only [hkv, hh] at hd
    rcases List.mem_cons.mp hd with h1 | h1
    · subst h1
      exact takeSeg_entries_good rest
    · exact ih d h1
  | case4 l rest hkv hh ih =>
    intro d hd
    rw [specDecls] at hd
    simp only [hkv, hh] at hd
    exact ih d hd

/-- Claim C9: every entry of every section (global or named) of a parsed
file has a non-empty key and value containing neither `'='` nor any
whitespace character, because entries are created only from lines matching
the key-value pattern. -/
theorem claim_C9 (input : String) :
    (∀ g, (iniOf input).get_global_section = some g →
        ∀ e ∈ g.entries, goodToken e.key ∧ goodToken e.value)
    ∧ (∀ n sec, (iniOf input).get_section_by_name n = some sec →
        ∀ e ∈ sec.entries, goodToken e.key ∧ goodToken e.value) := by
  constructor
  · intro g hg e he
    rw [iniOf_eq] at hg
    simp only [IniFile.get_global_section, specGlobal] at hg
    split at hg
    · exact absurd hg (by simp)
    · simp only [Option.some_inj] at hg
      subst hg
      exact takeSeg_entries_good _ e he
  · intro n sec hsec e he
    rw [iniOf_eq] at hsec
    simp only [IniFile.get_section_by_name, specSections] at hsec
    rw [lookup_foldl_insert] at hsec
    cases hfind : (specDecls (takeSeg (cleanLines input)).2).reverse.find?
        (fun d => d.1 == n) with
    | none => rw [hfind] at hsec; simp at hsec
    | some d =>
      rw [hfind] at hsec
      have hsec' : (⟨d.2⟩ : IniSection) = sec := by
        simpa using hsec
      subst hsec'
      have hd : d ∈ specDecls (takeSeg (cleanLines input)).2 := by
        have := List.mem_of_find?_eq_some hfind
        exact List.mem_reverse.mp this
      exact specDecls_entries_good _ d hd e he

/-- Claim C9, witness: the invariant observed on the parse of `"k=v"`. -/
theorem claim_C9_witness : goodToken "k" ∧ goodToken "v" :=
  (claim_C9 "k=v").1 ⟨[⟨"k", "v"⟩]⟩ (by decide) ⟨"k", "v"⟩ (by simp)

theorem splitNl_append_line (l rest : List Char) (h : '\n' ∉ l) :
    splitNl (l ++ '\n' :: rest) = l :: splitNl rest := by
  induction l with
  | nil =>
    rw [List.nil_append]
    simp only [splitNl]
    cases hs : splitNl rest <;> simp
  | cons c cs ih =>
    have hc : ¬ c = '\n' := fun he => h (by simp [he])
    rw [List.cons_append, splitNl, ih (fun hm => h (List.mem_cons_of_mem c hm))]
    simp [hc]

theorem splitNl_nlJoin (chunks : List (List Char)) (tail : List Char)
    (h : ∀ l ∈ chunks, '\n' ∉ l) :
    splitNl (nlJoin chunks ++ tail) = chunks ++ splitNl tail := by
  induction chunks with
  | nil => simp [nlJoin]
  | cons c cs ih =>
    have : nlJoin (c :: cs) ++ tail = c ++ '\n' :: (nlJoin cs ++ tail) := by
      simp [nlJoin]
    rw [this, splitNl_append_line c _ (h c (by simp)),
      ih (fun l hl => h l (by simp [hl]))]
    rfl

theorem stripCr_eq_self (l : List Char) (h : ¬ l.getLast? = some '\r') :
    stripCr l = l := by
  rw [stripCr, if_neg]
  simpa using h

theorem rustLinesAux_concat_empty (chunks : List (List Char)) :
    rustLinesAux (chunks ++ [[]]) = chunks.map stripCr := by
  induction chunks with
  | nil => rfl
  | cons c cs ih =>
    cases cs with
    | nil => rfl
    | cons c2 cs2 =>
      have ih' : rustLinesAux (c2 :: (cs2 ++ [[]])) = List.map stripCr (c2 :: cs2) := ih
      show stripCr c :: rustLinesAux (c2 :: (cs2 ++ [[]])) = _
      rw [ih']
      rfl

theorem joinAll_toList (ss : List String) :
    (joinAll ss).toList = (ss.map String.toList).flatten := by
  induction ss with
  | nil => rfl
  | cons s rest ih =>
    show (s ++ joinAll rest).toList = _
    rw [show (s ++ joinAll rest).toList = s.toList ++ (joinAll rest).toList from
      String.data_append s (joinAll rest), ih]
    rfl

theorem nlJoin_append (a b : List (List Char)) :
    nlJoin (a ++ b) = nlJoin a ++ nlJoin b := by
  simp [nlJoin]

theorem entry_fmt_toList (e : IniEntry) :
    e.fmt.toList = e.key.toList ++ (' ' :: '=' :: ' ' :: e.value.toList) := by
  rw [IniEntry.fmt]
  rw [show (e.key ++ " = " ++ e.value).toList
      = (e.key ++ " = ").toList ++ e.value.toList from String.data_append _ _]
  rw [show (e.key ++ " = ").toList = e.key.toList ++ (" = ").toList from
    String.data_append _ _]
  simp

theorem section_fmt_toList (sec : IniSection) :
    sec.fmt.toList = nlJoin (sec.entries.map (fun e => e.fmt.toList)) := by
  rw [IniSection.fmt, joinAll_toList, nlJoin]
  congr 1
  induction sec.entries with
  | nil => rfl
  | cons e rest ih =>
    simp only [List.map_cons, List.map_map, List.cons.injEq]
    constructor
    · exact String.data_append e.fmt "\n"
    · simp only [List.map_map] at ih
      exact ih

theorem sections_fmt_toList (secs : List (String × IniSection)) :
    (joinAll (secs.map (fun p => "[" ++ p.1 ++ "]" ++ "\n" ++ p.2.fmt))).toList
      = nlJoin ((secs.map
          (fun p => ('[' :: p.1.toList ++ [']']) :: p.2.entries.map
            (fun e => e.fmt.toList))).flatten) := by
  induction secs with
  | nil => rfl
  | cons p ps ih =>
    have hfirst : ("[" ++ p.1 ++ "]" ++ "\n" ++ p.2.fmt).toList
        = ('[' :: p.1.toList ++ [']']) ++ '\n' :: p.2.fmt.toList := by
      rw [show ("[" ++ p.1 ++ "]" ++ "\n" ++ p.2.fmt).toList
          = ("[" ++ p.1 ++ "]" ++ "\n").toList ++ p.2.fmt.toList from
        String.data_append _ _]
      rw [show ("[" ++ p.1 ++ "]" ++ "\n").toList
          = ("[" ++ p.1 ++ "]").toList ++ ("\n").toList from String.data_append _ _]
      rw [bracket_toList]
      simp
    show (("[" ++ p.1 ++ "]" ++ "\n" ++ p.2.fmt) ++ joinAll _).toList = _
    rw [show (("[" ++ p.1 ++ "]" ++ "\n" ++ p.2.fmt) ++
        joinAll (ps.map (fun p => "[" ++ p.1 ++ "]" ++ "\n" ++ p.2.fmt))).toList
        = ("[" ++ p.1 ++ "]" ++ "\n" ++ p.2.fmt).toList ++
          (joinAll (ps.map (fun p => "[" ++ p.1 ++ "]" ++ "\n" ++ p.2.fmt))).toList from
      String.data_append _ _]
    rw [hfirst, ih, List.map_cons, List.flatten_cons]
    rw [show ((('[' :: p.1.toList ++ [']']) :: p.2.entries.map (fun e => e.fmt.toList)) ++
        (ps.map (fun p => ('[' :: p.1.toList ++ [']']) :: p.2.entries.map
          (fun e => e.fmt.toList))).flatten)
        = ('[' :: p.1.toList ++ [']']) :: (p.2.entries.map (fun e => e.fmt.toList) ++
          (ps.map (fun p => ('[' :: p.1.toList ++ [']']) :: p.2.entries.map
            (fun e => e.fmt.toList))).flatten) from rfl]
    rw [show ∀ (c : List Char) (cs : List (List Char)),
        nlJoin (c :: cs) = (c ++ ['\n']) ++ nlJoin cs from fun c cs => rfl]
    rw [nlJoin_append, section_fmt_toList]
    simp

theorem fmt_toList (f : IniFile) : f.fmt.toList = nlJoin (fileChunks f) := by
  rw [IniFile.fmt, fileChunks]
  rw [show ∀ a b : String, (a ++ b).toList = a.toList ++ b.toList from
    fun a b => String.data_append a b]
  rw [nlJoin_append, sections_fmt_toList]
  congr 1
  cases hg : f.global_section with
  | none => rfl
  | some g =>
    rw [show (g.fmt ++ "\n").toList = g.fmt.toList ++ ['\n'] from
      String.data_append g.fmt "\n", section_fmt_toList, nlJoin_append]
    rfl

theorem takeWhile_append_stop (p : Char → Bool) (l1 : List Char) (y : Char)
    (l2 : List Char) (h1 : ∀ c ∈ l1, p c = true) (h2 : p y = false) :
    (l1 ++ y :: l2).takeWhile p = l1 := by
  induction l1 with
  | nil => simp [List.takeWhile_cons, h2]
  | cons a as ih =>
    rw [List.cons_append, List.takeWhile_cons, if_pos (h1 a (by simp)),
      ih (fun c hc => h1 c (by simp [hc]))]

theorem dropWhile_append_stop (p : Char → Bool) (l1 : List Char) (y : Char)
    (l2 : List Char) (h1 : ∀ c ∈ l1, p c = true) (h2 : p y = false) :
    (l1 ++ y :: l2).dropWhile p = y :: l2 := by
  induction l1 with
  | nil => simp [List.dropWhile_cons, h2]
  | cons a as ih =>
    rw [List.cons_append, List.dropWhile_cons, if_pos (h1 a (by simp)),
      ih (fun c hc => h1 c (by simp [hc]))]

theorem goodToken_isTok (t : String) (h : goodToken t) :
    ∀ c ∈ t.toList, isTokChar c = true := by
  intro c hc
  obtain ⟨h1, h2⟩ := h
  obtain ⟨he, hw⟩ := h2 c hc
  simp [isTokChar, he, hw]

theorem isWS_false_of_isTok (c : Char) (h : isTokChar c = true) : isWS c = false := by
  simp only [isTokChar, Bool.and_eq_true, Bool.not_eq_true'] at h
  exact h.2

theorem goodToken_toList_ne_nil (t : String) (h : goodToken t) : ¬ t.toList = [] := by
  intro he
  exact h.1 (String.toList_inj.mp he)

theorem matchKeyValue_entry (e : IniEntry) (hk : goodToken e.key)
    (hv : goodToken e.value) : matchKeyValue e.fmt = some (e.key, e.value) := by
  have hKtok := goodToken_isTok e.key hk
  have hVtok := goodToken_isTok e.value hv
  cases hKl : e.key.toList with
  | nil => exact absurd hKl (goodToken_toList_ne_nil e.key hk)
  | cons a as =>
  cases hVl : e.value.toList with
  | nil => exact absurd hVl (goodToken_toList_ne_nil e.value hv)
  | cons b bs =>
  rw [hKl] at hKtok
  rw [hVl] at hVtok
  have htoka : isTokChar a = true := hKtok a (by simp)
  have htokb : isTokChar b = true := hVtok b (by simp)
  have htl : e.fmt.toList = a :: (as ++ (' ' :: '=' :: ' ' :: (b :: bs))) := by
    rw [entry_fmt_toList, hKl, hVl]
    rfl
  have hwsa : isWS a = false := isWS_false_of_isTok a htoka
  have hwsb : isWS b = false := isWS_false_of_isTok b htokb
  have e0 : List.dropWhile isWS (a :: (as ++ ' ' :: '=' :: ' ' :: b :: bs))
      = a :: (as ++ ' ' :: '=' :: ' ' :: b :: bs) := by
    rw [List.dropWhile_cons, if_neg (by simp [hwsa])]
  have e1 : List.takeWhile isTokChar (a :: (as ++ ' ' :: '=' :: ' ' :: b :: bs))
      = a :: as := by
    rw [List.takeWhile_cons, if_pos htoka,
      takeWhile_append_stop _ as ' ' _ (fun c hc => hKtok c (by simp [hc])) (by decide)]
  have e2 : List.dropWhile isTokChar (a :: (as ++ ' ' :: '=' :: ' ' :: b :: bs))
      = ' ' :: '=' :: ' ' :: b :: bs := by
    rw [List.dropWhile_cons, if_pos htoka,
      dropWhile_append_stop _ as ' ' _ (fun c hc => hKtok c (by simp [hc])) (by decide)]
  have e3 : List.dropWhile isWS (' ' :: '=' :: ' ' :: b :: bs)
      = '=' :: ' ' :: b :: bs := by
    rw [List.dropWhile_cons, if_pos (by decide), List.dropWhile_cons,
      if_neg (by decide)]
  have e4 : List.dropWhile isWS (' ' :: b :: bs) = b :: bs := by
    rw [List.dropWhile_cons, if_pos (by decide), List.dropWhile_cons,
      if_neg (by simp [hwsb])]
  have e5 : List.takeWhile isTokChar (b :: bs) = b :: bs :=
    List.takeWhile_eq_self_iff.mpr hVtok
  have e6 : List.dropWhile isTokChar (b :: bs) = [] :=
    List.dropWhile_eq_nil_iff.mpr hVtok
  simp only [matchKeyValue, htl, e0, e1, e2, e3, e4, e5, e6]
  rw [← hKl, ← hVl, String.asString_toList, String.asString_toList]
  simp
  exact ⟨goodToken_toList_ne_nil e.key hk, goodToken_toList_ne_nil e.value hv⟩

theorem matchSectionHeader_bracket (n : String) (h1 : ¬ n = "")
    (h2 : '\n' ∉ n.toList) : matchSectionHeader ("[" ++ n ++ "]") = some n := by
  have hKl : ¬ n.toList = [] := fun he => h1 (String.toList_inj.mp he)
  have hshape : ("[" ++ n ++ "]").toList = ('[' :: n.toList) ++ [']'] := by
    rw [bracket_toList]
    rfl
  simp only [matchSectionHeader, hshape]
  have hhead : (('[' :: n.toList) ++ [']']).head? = some '[' := rfl
  have hlast : (('[' :: n.toList) ++ [']']).getLast? = some ']' :=
    List.getLast?_concat _
  have hlen : 3 ≤ (('[' :: n.toList) ++ [']']).length := by
    simp only [List.length_append, List.length_cons, List.length_singleton]
    have : 0 < n.toList.length := List.length_pos_of_ne_nil hKl
    omega
  have hmid : ((('[' :: n.toList) ++ [']']).drop 1).dropLast = n.toList := by
    rw [show (('[' :: n.toList) ++ [']']).drop 1 = n.toList ++ [']'] from rfl,
      List.dropLast_concat]
  rw [hmid]
  rw [if_pos]
  · rw [String.asString_toList]
  · have hall : (n.toList).all (fun c => !(c == '\n')) = true := by
      rw [List.all_eq_true]
      intro c hc
      simp only [Bool.not_eq_true', beq_eq_false_iff_ne, ne_eq]
      exact fun he => h2 (he ▸ hc)
    simp only [hhead, hlast, hlen, hall, Bool.and_eq_true, beq_iff_eq,
      decide_eq_true_eq]
    simp

theorem trimS_entry (e : IniEntry) (hk : goodToken e.key) (hv : goodToken e.value) :
    trimS e.fmt = e.fmt := by
  apply trimS_of_ends
  · intro c hc
    cases hKl : e.key.toList with
    | nil => exact absurd hKl (goodToken_toList_ne_nil e.key hk)
    | cons a as =>
      rw [entry_fmt_toList, hKl] at hc
      have hac : a = c := by simpa using hc
      subst hac
      exact isWS_false_of_isTok a (goodToken_isTok e.key hk a (by rw [hKl]; simp))
  · intro c hc
    have hVne : ¬ e.value.toList = [] := goodToken_toList_ne_nil e.value hv
    have hshape : e.fmt.toList
        = (e.key.toList ++ [' ', '=', ' ']) ++ e.value.toList := by
      rw [entry_fmt_toList, List.append_assoc]
      rfl
    rw [hshape, List.getLast?_append] at hc
    cases hVl : e.value.toList with
    | nil => exact absurd hVl hVne
    | cons b bs =>
      have hlast : (b :: bs).getLast? = some ((b :: bs).getLast (by simp)) :=
        List.getLast?_eq_getLast _ _
      rw [hVl, hlast] at hc
      rw [show (some ((b :: bs).getLast (by simp))).or
          ((e.key.toList ++ [' ', '=', ' ']).getLast?)
          = some ((b :: bs).getLast (by simp)) from rfl] at hc
      simp only [Option.some_inj] at hc
      subst hc
      have hmem : (b :: bs).getLast (by simp) ∈ b :: bs := List.getLast_mem _
      exact isWS_false_of_isTok _
        (goodToken_isTok e.value hv _ (by rw [hVl]; exact hmem))

theorem trimS_bracket (n : String) : trimS ("[" ++ n ++ "]") = "[" ++ n ++ "]" := by
  apply trimS_of_ends
  · intro c hc
    rw [bracket_toList] at hc
    simp only [List.head?_cons, Option.some_inj] at hc
    subst hc
    rfl
  · intro c hc
    rw [bracket_toList] at hc
    rw [show ('[' :: (n.toList ++ [']'])) = ('[' :: n.toList) ++ [']'] from rfl,
      List.getLast?_concat] at hc
    simp only [Option.some_inj] at hc
    subst hc
    rfl

theorem entry_fmt_getLast_notWS (e : IniEntry) (hv : goodToken e.value) :
    ∀ c, e.fmt.toList.getLast? = some c → isWS c = false := by
  intro c hc
  have hVne : ¬ e.value.toList = [] := goodToken_toList_ne_nil e.value hv
  have hshape : e.fmt.toList
      = (e.key.toList ++ [' ', '=', ' ']) ++ e.value.toList := by
    rw [entry_fmt_toList, List.append_assoc]
    rfl
  rw [hshape, List.getLast?_append] at hc
  cases hVl : e.value.toList with
  | nil => exact absurd hVl hVne
  | cons b bs =>
    have hlast : (b :: bs).getLast? = some ((b :: bs).getLast (by simp)) :=
      List.getLast?_eq_getLast _ _
    rw [hVl, hlast] at hc
    rw [show (some ((b :: bs).getLast (by simp))).or
        ((e.key.toList ++ [' ', '=', ' ']).getLast?)
        = some ((b :: bs).getLast (by simp)) from rfl] at hc
    simp only [Option.some_inj] at hc
    subst hc
    have hmem : (b :: bs).getLast (by simp) ∈ b :: bs := List.getLast_mem _
    exact isWS_false_of_isTok _
      (goodToken_isTok e.value hv _ (by rw [hVl]; exact hmem))

theorem entry_fmt_no_nl (e : IniEntry) (hk : goodToken e.key)
    (hv : goodToken e.value) : '\n' ∉ e.fmt.toList := by
  rw [entry_fmt_toList]
  intro hmem
  rcases List.mem_append.mp hmem with hm | hm
  · exact absurd (hk.2 '\n' hm).2 (by decide)
  · simp only [List.mem_cons] at hm
    rcases hm with hm | hm | hm | hm
    · exact absurd hm (by decide)
    · exact absurd hm (by decide)
    · exact absurd hm (by decide)
    · exact absurd (hv.2 '\n' hm).2 (by decide)

theorem entry_fmt_ne_empty (e : IniEntry) : ¬ e.fmt = "" := by
  intro habs
  have := congrArg String.toList habs
  rw [entry_fmt_toList] at this
  simp at this

theorem bracket_ne_empty (n : String) : ¬ ("[" ++ n ++ "]") = "" := by
  intro habs
  have := congrArg String.toList habs
  rw [bracket_toList] at this
  simp at this

theorem bracket_asString (n : String) :
    ('[' :: (n.toList ++ [']'])).asString = "[" ++ n ++ "]" := by
  rw [List.asString_eq, bracket_toList]

theorem parsableLine_entry (e : IniEntry) (hk : goodToken e.key)
    (hv : goodToken e.value) : parsableLine e.fmt = true := by
  rw [parsableLine, trimS_entry e hk hv, matchKeyValue_entry e hk hv]
  simp

theorem parsableLine_header (n : String) (h1 : ¬ n = "") (h2 : '\n' ∉ n.toList) :
    parsableLine ("[" ++ n ++ "]") = true := by
  rw [parsableLine, trimS_bracket, matchSectionHeader_bracket n h1 h2]
  simp

/-- Classification of the lines `IniFile.fmt` emits. -/
theorem fileChunks_mem (f : IniFile) (l : List Char) (hl : l ∈ fileChunks f) :
    (∃ g, f.global_section = some g ∧ ∃ e ∈ g.entries, l = e.fmt.toList)
    ∨ (∃ g, f.global_section = some g ∧ l = [])
    ∨ (∃ p ∈ f.sections, l = '[' :: (p.1.toList ++ [']']))
    ∨ (∃ p ∈ f.sections, ∃ e ∈ p.2.entries, l = e.fmt.toList) := by
  rw [fileChunks] at hl
  rcases List.mem_append.mp hl with h | h
  · cases hg : f.global_section with
    | none => rw [hg] at h; simp at h
    | some g =>
      rw [hg] at h
      rcases List.mem_append.mp h with h2 | h2
      · obtain ⟨e, he, heq⟩ := List.mem_map.mp h2
        exact Or.inl ⟨g, rfl, e, he, heq.symm⟩
      · simp only [List.mem_singleton] at h2
        exact Or.inr (Or.inl ⟨g, rfl, h2⟩)
  · obtain ⟨cl, hcl, hlcl⟩ := List.mem_flatten.mp h
    obtain ⟨p, hp, hpeq⟩ := List.mem_map.mp hcl
    subst hpeq
    rcases List.mem_cons.mp hlcl with h2 | h2
    · exact Or.inr (Or.inr (Or.inl ⟨p, hp, h2⟩))
    · obtain ⟨e, he, heq⟩ := List.mem_map.mp h2
      exact Or.inr (Or.inr (Or.inr ⟨p, hp, e, he, heq.symm⟩))

theorem rustLines_fmt (f : IniFile) (h : goodFileContent f) :
    rustLines f.fmt = (fileChunks f).map List.asString := by
  obtain ⟨hg, hs, _⟩ := h
  have hnl : ∀ l ∈ fileChunks f, '\n' ∉ l := by
    intro l hl
    rcases fileChunks_mem f l hl with ⟨g, hgl, e, he, hle⟩ | ⟨g, hgl, hle⟩
      | ⟨p, hp, hle⟩ | ⟨p, hp, e, he, hle⟩
    · subst hle
      exact entry_fmt_no_nl e ((hg g hgl).2 e he).1 ((hg g hgl).2 e he).2
    · subst hle; simp
    · subst hle
      intro hmem
      simp only [List.mem_cons, List.mem_append, List.mem_singleton] at hmem
      rcases hmem with hm | hm | hm
      · exact absurd hm (by decide)
      · exact (hs p hp).1.2.1 hm
      · exact absurd hm (by decide)
    · subst hle
      exact entry_fmt_no_nl e ((hs p hp).2 e he).1 ((hs p hp).2 e he).2
  have hcr : ∀ l ∈ fileChunks f, stripCr l = l := by
    intro l hl
    apply stripCr_eq_self
    rcases fileChunks_mem f l hl with ⟨g, hgl, e, he, hle⟩ | ⟨g, hgl, hle⟩
      | ⟨p, hp, hle⟩ | ⟨p, hp, e, he, hle⟩
    · subst hle
      intro habs
      exact absurd (entry_fmt_getLast_notWS e ((hg g hgl).2 e he).2 _ habs) (by decide)
    · subst hle; simp
    · subst hle
      rw [show ('[' :: (p.1.toList ++ [']'])) = ('[' :: p.1.toList) ++ [']'] from rfl,
        List.getLast?_concat]
      simp
    · subst hle
      intro habs
      exact absurd (entry_fmt_getLast_notWS e ((hs p hp).2 e he).2 _ habs) (by decide)
  rw [rustLines, fmt_toList]
  rw [show nlJoin (fileChunks f) = nlJoin (fileChunks f) ++ [] from by simp]
  rw [splitNl_nlJoin _ _ hnl]
  rw [show splitNl [] = [[]] from rfl, rustLinesAux_concat_empty]
  rw [List.map_congr_left hcr]
  simp

theorem cleanify_append (a b : List String) :
    cleanify (a ++ b) = cleanify a ++ cleanify b := by
  simp [cleanify, List.map_append, List.filter_append]

theorem cleanify_of_good (ls : List String)
    (h : ∀ l ∈ ls, trimS l = l ∧ ¬ l = "") : cleanify ls = ls := by
  induction ls with
  | nil => rfl
  | cons l rest ih =>
    rw [cleanify_cons, (h l (by simp)).1, if_neg (h l (by simp)).2,
      ih (fun l' hl' => h l' (by simp [hl']))]

/-- The clean lines of a rendered good file: the global entry lines followed
by, per section, the header line and the section's entry lines. -/
theorem cleanLines_fmt (f : IniFile) (h : goodFileContent f) :
    cleanLines f.fmt
      = (match f.global_section with
         | some g => g.entries.map (fun e => e.fmt)
         | none => [])
        ++ (f.sections.map
            (fun p => ("[" ++ p.1 ++ "]") :: p.2.entries.map (fun e => e.fmt))).flatten := by
  have hg := h.1
  have hs := h.2.1
  rw [cleanLines, rustLines_fmt f h, fileChunks, List.map_append, cleanify_append]
  congr 1
  · cases hgl : f.global_section with
    | none => rfl
    | some g =>
      rw [List.map_append]
      rw [show List.map List.asString (List.map (fun e => e.fmt.toList) g.entries)
          = g.entries.map (fun e => e.fmt) from by
        rw [List.map_map]
        exact List.map_congr_left (fun e he => String.asString_toList _)]
      rw [cleanify_append]
      rw [cleanify_of_good _ (fun l hl => by
        obtain ⟨e, he, hle⟩ := List.mem_map.mp hl
        subst hle
        exact ⟨trimS_entry e ((hg g hgl).2 e he).1 ((hg g hgl).2 e he).2,
          entry_fmt_ne_empty e⟩)]
      rw [show cleanify (List.map List.asString [([] : List Char)]) = [] from rfl]
      rw [List.append_nil]
  · rw [List.map_flatten, List.map_map]
    have hmapeq : List.map (List.map List.asString ∘ fun p =>
          ('[' :: p.1.toList ++ [']']) :: p.2.entries.map (fun e => e.fmt.toList))
          f.sections
        = f.sections.map
            (fun p => ("[" ++ p.1 ++ "]") :: p.2.entries.map (fun e => e.fmt)) := by
      apply List.map_congr_left
      intro p hp
      simp only [Function.comp_apply, List.map_cons, List.map_map]
      exact congr (congrArg List.cons (bracket_asString p.1))
        (List.map_congr_left (fun e he => String.asString_toList _))
    rw [hmapeq]
    apply cleanify_of_good
    intro l hl
    obtain ⟨cl, hcl, hlcl⟩ := List.mem_flatten.mp hl
    obtain ⟨p, hp, hpe⟩ := List.mem_map.mp hcl
    subst hpe
    rcases List.mem_cons.mp hlcl with h2 | h2
    · subst h2
      exact ⟨trimS_bracket p.1, bracket_ne_empty p.1⟩
    · obtain ⟨e, he, hee⟩ := List.mem_map.mp h2
      subst hee
      exact ⟨trimS_entry e ((hs p hp).2 e he).1 ((hs p hp).2 e he).2,
        entry_fmt_ne_empty e⟩

theorem takeSeg_entryLines (es : List IniEntry) (tail : List String)
    (h : ∀ e ∈ es, goodToken e.key ∧ goodToken e.value) :
    takeSeg (es.map (fun e => e.fmt) ++ tail)
      = (es ++ (takeSeg tail).1, (takeSeg tail).2) := by
  induction es with
  | nil => simp
  | cons e es ih =>
    rw [List.map_cons, List.cons_append, takeSeg]
    rw [matchKeyValue_entry e (h e (by simp)).1 (h e (by simp)).2]
    rw [ih (fun e' he' => h e' (by simp [he']))]
    rfl

theorem takeSeg_sectionLines (secs : List (String × IniSection))
    (h : ∀ p ∈ secs, goodSectionName p.1) :
    takeSeg ((secs.map
        (fun p => ("[" ++ p.1 ++ "]") :: p.2.entries.map (fun e => e.fmt))).flatten)
      = ([], (secs.map
          (fun p => ("[" ++ p.1 ++ "]") :: p.2.entries.map (fun e => e.fmt))).flatten) := by
  cases secs with
  | nil => rfl
  | cons p ps =>
    rw [List.map_cons, List.flatten_cons, List.cons_append, takeSeg]
    rw [(h p (by simp)).2.2,
      matchSectionHeader_bracket p.1 (h p (by simp)).1 (h p (by simp)).2.1]

theorem specDecls_sectionLines (secs : List (String × IniSection))
    (h : ∀ p ∈ secs, goodSectionName p.1
      ∧ ∀ e ∈ p.2.entries, goodToken e.key ∧ goodToken e.value) :
    specDecls ((secs.map
        (fun p => ("[" ++ p.1 ++ "]") :: p.2.entries.map (fun e => e.fmt))).flatten)
      = secs.map (fun p => (p.1, p.2.entries)) := by
  induction secs with
  | nil => simp [specDecls]
  | cons p ps ih =>
    rw [List.map_cons, List.flatten_cons, List.cons_append, specDecls]
    rw [(h p (by simp)).1.2.2,
      matchSectionHeader_bracket p.1 (h p (by simp)).1.1 (h p (by simp)).1.2.1]
    rw [takeSeg_entryLines p.2.entries _ (fun e he => (h p (by simp)).2 e he)]
    rw [takeSeg_sectionLines ps (fun p' hp' => (h p' (by simp [hp'])).1)]
    rw [ih (fun p' hp' => h p' (by simp [hp']))]
    simp

theorem foldl_insert_nodup (ds : List (String × List IniEntry)) :
    ∀ (m : List (String × IniSection)), (ds.map Prod.fst).Nodup →
    (∀ d ∈ ds, ∀ p ∈ m, ¬ p.1 = d.1) →
    List.foldl (fun m d => insertSection m d.1 ⟨d.2⟩) m ds
      = m ++ ds.map (fun d => (d.1, (⟨d.2⟩ : IniSection))) := by
  induction ds with
  | nil => intro m _ _; simp
  | cons d ds ih =>
    intro m hnd hdisj
    have hnd' : (d.1 :: ds.map Prod.fst).Nodup := by simpa using hnd
    obtain ⟨hdin, hndtail⟩ := List.nodup_cons.mp hnd'
    rw [List.foldl_cons]
    have hins : insertSection m d.1 ⟨d.2⟩ = m ++ [(d.1, ⟨d.2⟩)] := by
      rw [insertSection]
      congr 1
      rw [List.filter_eq_self]
      intro p hp
      simpa using hdisj d (by simp) p hp
    have hdisj2 : ∀ d' ∈ ds, ∀ p ∈ m ++ [(d.1, (⟨d.2⟩ : IniSection))],
        ¬ p.1 = d'.1 := by
      intro d' hd' p hp
      rcases List.mem_append.mp hp with hp2 | hp2
      · exact hdisj d' (by simp [hd']) p hp2
      · simp only [List.mem_singleton] at hp2
        subst hp2
        intro habs
        refine hdin ?_
        rw [show d.1 = d'.1 from habs]
        exact List.mem_map.mpr ⟨d', hd', rfl⟩
    rw [hins, ih _ hndtail hdisj2]
    simp

/-- Claim C7 (amended): rendering a built file and re-parsing is the
identity — and in particular yields an equivalent file (same named-section
names, same presence of a global section, same per-section key-to-first-value
mapping) — provided the file's content is renderable: entry keys and values
are non-empty `'='`-free whitespace-free tokens, a present global section is
non-empty, section names are non-empty, newline-free, unique (the `HashMap`
key invariant), and no section name yields a header line that the key-value
pattern (tried first by `parse`) accepts.  Under these conditions the
rendered text also contains no unparsable lines. -/
theorem claim_C7 (f : IniFile) (h : goodFileContent f) :
    (∀ l ∈ rustLines f.fmt, parsableLine l = true)
    ∧ iniOf f.fmt = f
    ∧ (∀ n, ((iniOf f.fmt).get_section_by_name n).isSome
        = (f.get_section_by_name n).isSome)
    ∧ ((iniOf f.fmt).get_global_section).isSome = (f.get_global_section).isSome
    ∧ (∀ n k, ((iniOf f.fmt).get_section_by_name n).bind
          (fun s0 => s0.get_value_by_key k)
        = (f.get_section_by_name n).bind (fun s0 => s0.get_value_by_key k))
    ∧ (∀ k, ((iniOf f.fmt).get_global_section).bind
          (fun s0 => s0.get_value_by_key k)
        = (f.get_global_section).bind (fun s0 => s0.get_value_by_key k)) := by
  have hg := h.1
  have hs := h.2.1
  have hnd := h.2.2
  have hmain : iniOf f.fmt = f := by
    rw [iniOf_eq, cleanLines_fmt f h]
    have hsecsgood : ∀ p ∈ f.sections, goodSectionName p.1
        ∧ ∀ e ∈ p.2.entries, goodToken e.key ∧ goodToken e.value :=
      fun p hp => ⟨(hs p hp).1, (hs p hp).2⟩
    have htakeS := takeSeg_sectionLines f.sections (fun p hp => (hs p hp).1)
    have hspecS := specDecls_sectionLines f.sections hsecsgood
    have hfold := foldl_insert_nodup (f.sections.map (fun p => (p.1, p.2.entries)))
      [] (by simpa [List.map_map, Function.comp] using hnd) (by simp)
    cases hgl : f.global_section with
    | none =>
      rw [show (match (none : Option IniSection) with
          | some g => g.entries.map (fun e => e.fmt)
          | none => ([] : List String)) = [] from rfl]
      rw [List.nil_append]
      rw [specGlobal, specSections, htakeS]
      simp only [List.isEmpty_nil, if_true]
      rw [hspecS, hfold, List.nil_append]
      rw [show (f.sections.map (fun p => (p.1, p.2.entries))).map
          (fun d => (d.1, (⟨d.2⟩ : IniSection))) = f.sections from by
        rw [List.map_map]
        rw [show ((fun d : String × List IniEntry => (d.1, (⟨d.2⟩ : IniSection)))
            ∘ (fun p : String × IniSection => (p.1, p.2.entries)))
            = id from rfl]
        exact List.map_id _]
      rw [← hgl]
    | some g =>
      rw [show (match (some g : Option IniSection) with
          | some g => g.entries.map (fun e => e.fmt)
          | none => ([] : List String)) = g.entries.map (fun e => e.fmt) from rfl]
      rw [specGlobal, specSections]
      rw [takeSeg_entryLines g.entries _ (hg g hgl).2, htakeS]
      have hne : (g.entries ++ ([] : List IniEntry)).isEmpty = false := by
        simp only [List.append_nil]
        cases hgen : g.entries with
        | nil => exact absurd hgen (hg g hgl).1
        | cons a b => rfl
      rw [hne]
      simp only [Bool.false_eq_true, if_false, List.append_nil]
      rw [hspecS, hfold, List.nil_append]
      rw [show (f.sections.map (fun p => (p.1, p.2.entries))).map
          (fun d => (d.1, (⟨d.2⟩ : IniSection))) = f.sections from by
        rw [List.map_map]
        rw [show ((fun d : String × List IniEntry => (d.1, (⟨d.2⟩ : IniSection)))
            ∘ (fun p : String × IniSection => (p.1, p.2.entries)))
            = id from rfl]
        exact List.map_id _]
      rw [show (⟨g.entries⟩ : IniSection) = g from rfl, ← hgl]
  refine ⟨?_, hmain, fun n => by rw [hmain], by rw [hmain],
    fun n k => by rw [hmain], fun k => by rw [hmain]⟩
  intro l hl
  rw [rustLines_fmt f h] at hl
  obtain ⟨c, hc, hcl⟩ := List.mem_map.mp hl
  subst hcl
  rcases fileChunks_mem f c hc with ⟨g, hgl, e, he, hle⟩ | ⟨g, hgl, hle⟩
    | ⟨p, hp, hle⟩ | ⟨p, hp, e, he, hle⟩
  · subst hle
    rw [String.asString_toList]
    exact parsableLine_entry e ((hg g hgl).2 e he).1 ((hg g hgl).2 e he).2
  · subst hle
    decide
  · subst hle
    rw [bracket_asString]
    exact parsableLine_header p.1 (hs p hp).1.1 (hs p hp).1.2.1
  · subst hle
    rw [String.asString_toList]
    exact parsableLine_entry e ((hs p hp).2 e he).1 ((hs p hp).2 e he).2

/-- Claim C7, witness: a renderable two-section file round-trips to itself. -/
theorem claim_C7_witness :
    iniOf (IniFile.fmt ⟨some ⟨[⟨"g", "1"⟩]⟩, [("s1", ⟨[⟨"a", "2"⟩]⟩)]⟩)
      = ⟨some ⟨[⟨"g", "1"⟩]⟩, [("s1", ⟨[⟨"a", "2"⟩]⟩)]⟩ :=
  (claim_C7 ⟨some ⟨[⟨"g", "1"⟩]⟩, [("s1", ⟨[⟨"a", "2"⟩]⟩)]⟩ (by
    refine ⟨?_, ?_, ?_⟩
    · intro g hgl
      simp only [Option.some_inj] at hgl
      subst hgl
      exact ⟨by decide, by decide⟩
    · intro p hp
      simp only [List.mem_singleton] at hp
      subst hp
      exact ⟨⟨by decide, by decide, by decide⟩, by decide⟩
    · decide)).2.1

/-- Claim C7, counterexample to the claim as stated: three built files whose
rendered text contains no unparsable line yet whose re-parse is not
equivalent.  An empty global section renders to a blank line and vanishes; a
section named `"a=b"` renders to the line `"[a=b]"`, which `parse` classifies
as a key-value entry, so the section is lost; a key `"k "` with trailing
whitespace renders to `"k  = v"`, whose re-parse yields the different key
`"k"`. -/
theorem claim_C7_counterexample :
    ((rustLines (IniFile.fmt ⟨some ⟨[]⟩, []⟩)).all parsableLine = true
      ∧ (iniOf (IniFile.fmt ⟨some ⟨[]⟩, []⟩)).get_global_section.isSome = false
      ∧ (IniFile.get_global_section ⟨some ⟨[]⟩, []⟩).isSome = true)
    ∧ ((rustLines (IniFile.fmt ⟨none, [("a=b", ⟨[]⟩)]⟩)).all parsableLine = true
      ∧ (iniOf (IniFile.fmt ⟨none, [("a=b", ⟨[]⟩)]⟩)).get_section_by_name "a=b" = none
      ∧ (IniFile.get_section_by_name ⟨none, [("a=b", ⟨[]⟩)]⟩ "a=b").isSome = true)
    ∧ ((rustLines (IniFile.fmt ⟨some ⟨[⟨"k ", "v"⟩]⟩, []⟩)).all parsableLine = true
      ∧ ((iniOf (IniFile.fmt ⟨some ⟨[⟨"k ", "v"⟩]⟩, []⟩)).get_global_section.bind
          (fun s0 => s0.get_value_by_key "k ")) = none
      ∧ ((IniFile.get_global_section ⟨some ⟨[⟨"k ", "v"⟩]⟩, []⟩).bind
          (fun s0 => s0.get_value_by_key "k ")) = some "v") := by
  decide

end Miniparse
